import Mathlib

/-!
Shallow embedding of `src/script/script.service.ts` (k6ctl).

The pure core (`sanitizeText`, the Node `path.parse(..).name` / `basename` /
`join` helpers, decimal rendering of `Date.now()`, base64 encoding) is
translated into executable Lean functions on `List Char` / `Nat`.  The
effectful functions (`archiveTest`, `createConfigMap`, `deleteConfigMap`)
are translated into pure functions over an explicit `World` record that
supplies the outcome of every external observation the TypeScript code
makes (existsSync, subprocess exit status, Date.now, fs.stat, fs.readFile,
cluster API outcome), and they additionally return the ordered list of
subprocess / cluster-API effects the code performs, so that fail-fast
claims ("no subprocess is spawned", "no create request is submitted") can
be stated.
-/

namespace K6ctl

/-! ## Character classes of the regexes in `sanitizeText`

The regex classes used by the code (`[a-z0-9.-]`, `[a-z0-9]`, `[.-]`,
`_`) are ASCII-exact.  Lowercasing is modelled per code point as the
list of code points it produces (see `jsLower`); the two non-ASCII code
points whose Unicode lowercase contains ASCII letters are mapped
exactly, so the composed pipeline agrees with the program on every
input. -/

/-- The class `[a-z0-9]` of the code's regexes. -/
def isLowerAlnum (c : Char) : Bool :=
  (97 ≤ c.toNat && c.toNat ≤ 122) || (48 ≤ c.toNat && c.toNat ≤ 57)

/-- The class `[a-z0-9.-]` of the code's regexes. -/
def isAllowed (c : Char) : Bool :=
  isLowerAlnum c || c == '.' || c == '-'

/-- The class `[.-]` of the code's regexes. -/
def isDashDot (c : Char) : Bool :=
  c == '-' || c == '.'

/-- JS `String.prototype.toLowerCase`, per code point, as the list of
code points it produces.  `A`–`Z` lowercase to `a`–`z`.  Exactly two
non-ASCII code points have a Unicode lowercase containing ASCII
characters, and they are mapped exactly: U+212A KELVIN SIGN → `k`, and
U+0130 LATIN CAPITAL LETTER I WITH DOT ABOVE → `i` followed by U+0307
COMBINING DOT ABOVE (the one unconditional multi-character lowercase
mapping of SpecialCasing.txt).  Every other code point is kept: its
real lowercase is a single code point outside `[a-z0-9.-]` exactly when
the code point itself is (no other code point lowercases into ASCII,
and `-`/`.` are uncased), which is all the following replacement step
observes. -/
def jsLower (c : Char) : List Char :=
  if 65 ≤ c.toNat ∧ c.toNat ≤ 90 then [Char.ofNat (c.toNat + 32)]
  else if c.toNat = 8490 then ['k']
  else if c.toNat = 304 then ['i', Char.ofNat 775]
  else [c]

/-- The step `replace(/[c]+/g, c)`: collapse each maximal run of `c` to a single
`c`, keeping every other character. -/
def collapseRuns (c : Char) : List Char → List Char
  | [] => []
  | [a] => [a]
  | a :: b :: rest =>
    if a = c ∧ b = c then collapseRuns c (b :: rest)
    else a :: collapseRuns c (b :: rest)

/-- The string contains two adjacent occurrences of `c` (i.e. the
substring `cc`, such as `--` or `..`). -/
def hasRun (c : Char) : List Char → Bool
  | a :: b :: rest => (a == c && b == c) || hasRun c (b :: rest)
  | _ => false

/-- Line 127: `text.toLowerCase()`. -/
def sanStep1 (l : List Char) : List Char := l.flatMap jsLower

/-- Line 130: `replace(/_/g, '-')`. -/
def sanStep2 (l : List Char) : List Char :=
  l.map fun c => if c = '_' then '-' else c

/-- Line 133: `replace(/[^a-z0-9.-]/g, '-')`. -/
def sanStep3 (l : List Char) : List Char :=
  l.map fun c => if isAllowed c then c else '-'

/-- Line 136: `replace(/^[^a-z0-9]+|[^a-z0-9]+$/g, '')`: strip the leading and the
trailing run of non-alphanumeric characters. -/
def sanStep4 (l : List Char) : List Char :=
  (l.dropWhile fun c => !isLowerAlnum c).rdropWhile fun c => !isLowerAlnum c

/-- Line 143: `replace(/^[.-]+|[.-]+$/g, '')`: strip the leading and the trailing
run of `-`/`.` characters. -/
def sanStep7 (l : List Char) : List Char :=
  (l.dropWhile isDashDot).rdropWhile isDashDot

/-- The body of `sanitizeText` of `script.service.ts`, on the character list:
lowercase; `_` → `-`; every char outside `[a-z0-9.-]` → `-`; strip
leading/trailing non-alphanumeric runs; collapse `-` runs
(`replace(/[-]+/g, '-')`), then `.` runs (`replace(/[.]+/g, '.')`);
strip leading/trailing `[.-]` runs. -/
def sanitizeChars (l : List Char) : List Char :=
  sanStep7 (collapseRuns '.' (collapseRuns '-' (sanStep4 (sanStep3 (sanStep2 (sanStep1 l))))))

/-- The function `sanitizeText` of `script.service.ts` (lines 125–146). -/
def sanitizeText (s : String) : String :=
  ⟨sanitizeChars s.data⟩

example : sanitizeText "My_Script (v2).final..js" = "my-script-v2-.final.js" := by decide

example : sanitizeText "___" = "" := by decide

example : sanitizeText "k6_script_sample_2" = "k6-script-sample-2" := by decide

example : sanitizeText "K" = "k" := by decide

example : sanitizeText "İ" = "i" := by decide

/-! ## Lemmas about `collapseRuns` and `hasRun` -/

theorem collapseRuns_cons (c x : Char) (xs : List Char) :
    ∃ t, collapseRuns c (x :: xs) = x :: t := by
  induction xs generalizing x with
  | nil => exact ⟨[], rfl⟩
  | cons b rest ih =>
    by_cases h : x = c ∧ b = c
    · obtain ⟨t, ht⟩ := ih b
      refine ⟨t, ?_⟩
      simp only [collapseRuns, if_pos h]
      rw [ht, h.1, h.2]
    · exact ⟨collapseRuns c (b :: rest), by simp only [collapseRuns, if_neg h]⟩

theorem hasRun_tail {c a : Char} {t : List Char} (h : hasRun c (a :: t) = false) :
    hasRun c t = false := by
  cases t with
  | nil => rfl
  | cons b rest =>
    simp only [hasRun, Bool.or_eq_false_iff] at h
    exact h.2

theorem hasRun_head {c a b : Char} {t : List Char}
    (h : hasRun c (a :: b :: t) = false) : ¬(a = c ∧ b = c) := by
  simp only [hasRun, Bool.or_eq_false_iff, Bool.and_eq_false_iff, beq_eq_false_iff_ne,
    ne_eq] at h
  rintro ⟨rfl, rfl⟩
  rcases h.1 with h' | h' <;> exact h' rfl

theorem hasRun_collapseRuns_self (c : Char) (l : List Char) :
    hasRun c (collapseRuns c l) = false := by
  induction l with
  | nil => rfl
  | cons a t ih =>
    cases t with
    | nil => rfl
    | cons b rest =>
      by_cases h : a = c ∧ b = c
      · simp only [collapseRuns, if_pos h]
        exact ih
      · simp only [collapseRuns, if_neg h]
        obtain ⟨t', ht'⟩ := collapseRuns_cons c b rest
        rw [ht'] at ih ⊢
        simp only [hasRun, Bool.or_eq_false_iff]
        refine ⟨?_, ih⟩
        rcases Decidable.not_and_iff_or_not.mp h with h' | h' <;>
          simp [beq_eq_false_iff_ne, h']

theorem hasRun_collapseRuns {c d : Char} {l : List Char} (h : hasRun d l = false) :
    hasRun d (collapseRuns c l) = false := by
  induction l with
  | nil => rfl
  | cons a t ih =>
    cases t with
    | nil => rfl
    | cons b rest =>
      by_cases hc : a = c ∧ b = c
      · simp only [collapseRuns, if_pos hc]
        exact ih (hasRun_tail h)
      · simp only [collapseRuns, if_neg hc]
        obtain ⟨t', ht'⟩ := collapseRuns_cons c b rest
        have ih' := ih (hasRun_tail h)
        rw [ht'] at ih' ⊢
        simp only [hasRun, Bool.or_eq_false_iff]
        refine ⟨?_, ih'⟩
        have := hasRun_head h
        rcases Decidable.not_and_iff_or_not.mp this with h' | h' <;>
          simp [beq_eq_false_iff_ne, h']

theorem collapseRuns_eq_self {c : Char} {l : List Char} (h : hasRun c l = false) :
    collapseRuns c l = l := by
  induction l with
  | nil => rfl
  | cons a t ih =>
    cases t with
    | nil => rfl
    | cons b rest =>
      simp only [collapseRuns, if_neg (hasRun_head h)]
      rw [ih (hasRun_tail h)]

theorem mem_collapseRuns {c x : Char} {l : List Char}
    (h : x ∈ collapseRuns c l) : x ∈ l := by
  induction l with
  | nil => exact absurd h (by simp [collapseRuns])
  | cons a t ih =>
    cases t with
    | nil => exact h
    | cons b rest =>
      by_cases hc : a = c ∧ b = c
      · simp only [collapseRuns, if_pos hc] at h
        exact List.mem_cons_of_mem a (ih h)
      · simp only [collapseRuns, if_neg hc, List.mem_cons] at h
        rcases h with h | h
        · exact h ▸ List.mem_cons_self a _
        · exact List.mem_cons_of_mem a (ih h)

theorem hasRun_iff {c : Char} {l : List Char} :
    hasRun c l = true ↔ ∃ l1 l2, l = l1 ++ c :: c :: l2 := by
  constructor
  · intro h
    induction l with
    | nil => exact absurd h (by simp [hasRun])
    | cons a t ih =>
      cases t with
      | nil => exact absurd h (by simp [hasRun])
      | cons b rest =>
        simp only [hasRun, Bool.or_eq_true, Bool.and_eq_true, beq_iff_eq] at h
        rcases h with ⟨rfl, rfl⟩ | h
        · exact ⟨[], rest, rfl⟩
        · obtain ⟨l1, l2, hl⟩ := ih h
          exact ⟨a :: l1, l2, by rw [List.cons_append, ← hl]⟩
  · rintro ⟨l1, l2, rfl⟩
    induction l1 with
    | nil => simp [hasRun]
    | cons a l1' ih =>
      rw [List.cons_append]
      cases hl : l1' ++ c :: c :: l2 with
      | nil => exact absurd hl (by simp)
      | cons x xs =>
        rw [hl] at ih
        simp only [hasRun, Bool.or_eq_true]
        exact Or.inr ih

theorem hasRun_reverse (c : Char) (l : List Char) :
    hasRun c l.reverse = hasRun c l := by
  have aux : ∀ m : List Char, hasRun c m = true → hasRun c m.reverse = true := by
    intro m hm
    obtain ⟨l1, l2, rfl⟩ := hasRun_iff.mp hm
    refine hasRun_iff.mpr ⟨l2.reverse, l1.reverse, ?_⟩
    simp [List.reverse_append]
  cases h : hasRun c l with
  | true => exact aux l h
  | false =>
    cases h' : hasRun c l.reverse with
    | false => rfl
    | true =>
      have := aux _ h'
      rw [List.reverse_reverse, h] at this
      exact absurd this (by simp)

theorem hasRun_dropWhile (c : Char) (p : Char → Bool) {l : List Char}
    (h : hasRun c l = false) : hasRun c (l.dropWhile p) = false := by
  induction l with
  | nil => rfl
  | cons a t ih =>
    rw [List.dropWhile_cons]
    by_cases hp : p a
    · rw [if_pos hp]
      exact ih (hasRun_tail h)
    · rw [if_neg hp]
      exact h

theorem hasRun_rdropWhile (c : Char) (p : Char → Bool) {l : List Char}
    (h : hasRun c l = false) : hasRun c (l.rdropWhile p) = false := by
  rw [List.rdropWhile, hasRun_reverse]
  exact hasRun_dropWhile c p (by rw [hasRun_reverse]; exact h)

theorem hasRun_append_left {c : Char} {l1 : List Char} (l2 : List Char)
    (h : hasRun c l1 = true) : hasRun c (l1 ++ l2) = true := by
  obtain ⟨a, b, rfl⟩ := hasRun_iff.mp h
  exact hasRun_iff.mpr ⟨a, b ++ l2, by simp⟩

theorem hasRun_of_not_mem {c : Char} {l : List Char} (h : c ∉ l) :
    hasRun c l = false := by
  cases hr : hasRun c l with
  | false => rfl
  | true =>
    obtain ⟨l1, l2, rfl⟩ := hasRun_iff.mp hr
    exact absurd (by simp : c ∈ l1 ++ c :: c :: l2) h

/-! ## Membership, head and last through the trimming steps -/

theorem mem_of_mem_dropWhile {p : Char → Bool} {x : Char} {l : List Char}
    (h : x ∈ l.dropWhile p) : x ∈ l := by
  obtain ⟨s, hs⟩ := List.dropWhile_suffix (l := l) p
  rw [← hs]
  exact List.mem_append_right s h

theorem mem_of_mem_rdropWhile {p : Char → Bool} {x : Char} {l : List Char}
    (h : x ∈ l.rdropWhile p) : x ∈ l := by
  rw [List.rdropWhile, List.mem_reverse] at h
  have := mem_of_mem_dropWhile h
  rwa [List.mem_reverse] at this

theorem exists_rdrop (p : Char → Bool) (l : List Char) :
    ∃ t, l = l.rdropWhile p ++ t := by
  obtain ⟨s, hs⟩ := List.dropWhile_suffix (l := l.reverse) p
  refine ⟨s.reverse, ?_⟩
  have := congrArg List.reverse hs
  rw [List.reverse_append, List.reverse_reverse] at this
  rw [List.rdropWhile, this]

theorem mem_of_head? {c : Char} {m : List Char} (h : m.head? = some c) : c ∈ m := by
  cases m with
  | nil => exact absurd h (by simp)
  | cons a t =>
    simp only [List.head?_cons, Option.some.injEq] at h
    simp [h]

theorem head?_dropWhile_not {p : Char → Bool} {l : List Char} {c : Char}
    (h : (l.dropWhile p).head? = some c) : p c = false := by
  have hne : l.dropWhile p ≠ [] := by
    intro h'; rw [h'] at h; exact Option.noConfusion h
  have hnot := List.head_dropWhile_not p l hne
  rw [List.head?_eq_head hne, Option.some.injEq] at h
  rw [← h]
  exact Bool.not_eq_true _ ▸ (by simpa using hnot)

theorem getLast?_rdropWhile_not {p : Char → Bool} {l : List Char} {c : Char}
    (h : (l.rdropWhile p).getLast? = some c) : p c = false := by
  have hne : l.rdropWhile p ≠ [] := by
    intro h'; rw [h'] at h; exact Option.noConfusion h
  have hnot := List.rdropWhile_last_not p l hne
  rw [List.getLast?_eq_getLast _ hne, Option.some.injEq] at h
  rw [← h]
  simpa using hnot

theorem head?_append_of_head? {m t : List Char} {c : Char} (h : m.head? = some c) :
    (m ++ t).head? = some c := by
  cases m with
  | nil => exact absurd h (by simp)
  | cons a u =>
    simp only [List.head?_cons, Option.some.injEq] at h
    simp [h]

theorem dropWhile_eq_self_of_head {p : Char → Bool} {m : List Char}
    (h : ∀ c, m.head? = some c → p c = false) : m.dropWhile p = m := by
  cases m with
  | nil => rfl
  | cons a t =>
    rw [List.dropWhile_cons, if_neg (by simp [h a rfl])]

theorem rdropWhile_eq_self_of_getLast {p : Char → Bool} {m : List Char}
    (h : ∀ c, m.getLast? = some c → p c = false) : m.rdropWhile p = m := by
  rw [List.rdropWhile_eq_self_iff]
  intro hne
  have := h (m.getLast hne) (List.getLast?_eq_getLast m hne)
  simp [this]

/-! ## Character-class lemmas -/

theorem jsLower_allowed {c : Char} (h : isAllowed c = true) : jsLower c = [c] := by
  simp only [isAllowed, isLowerAlnum, Bool.or_eq_true, Bool.and_eq_true, beq_iff_eq,
    decide_eq_true_eq] at h
  unfold jsLower
  rcases h with ((h | h) | h) | h
  · rw [if_neg (by omega), if_neg (by omega), if_neg (by omega)]
  · rw [if_neg (by omega), if_neg (by omega), if_neg (by omega)]
  · subst h; decide
  · subst h; decide

theorem flatMap_id_of_mem {f : Char → List Char} {m : List Char}
    (h : ∀ x ∈ m, f x = [x]) : m.flatMap f = m := by
  induction m with
  | nil => rfl
  | cons a t ih =>
    rw [List.flatMap_cons, h a (List.mem_cons_self a t),
      ih fun x hx => h x (List.mem_cons_of_mem a hx)]
    rfl

theorem sanStep2_allowed_id {c : Char} (h : isAllowed c = true) :
    (if c = '_' then '-' else c) = c := by
  rw [if_neg]
  intro h'
  subst h'
  exact absurd h (by decide)

theorem allowed_not_dashdot {c : Char} (h1 : isAllowed c = true)
    (h2 : isDashDot c = false) : isLowerAlnum c = true := by
  simp only [isAllowed, Bool.or_eq_true] at h1
  simp only [isDashDot, Bool.or_eq_false_iff] at h2
  rcases h1 with (h | h) | h
  · exact h
  · rw [h] at h2; exact absurd h2.2 (by simp)
  · rw [h] at h2; exact absurd h2.1 (by simp)

theorem lowerAlnum_not_dashdot {c : Char} (h : isLowerAlnum c = true) :
    isDashDot c = false := by
  cases hd : isDashDot c with
  | false => rfl
  | true =>
    simp only [isDashDot, Bool.or_eq_true, beq_iff_eq] at hd
    rcases hd with rfl | rfl <;> exact absurd h (by decide)

theorem map_id_of_mem {f : Char → Char} {m : List Char} (h : ∀ x ∈ m, f x = x) :
    m.map f = m := by
  induction m with
  | nil => rfl
  | cons a t ih =>
    rw [List.map_cons, h a (List.mem_cons_self a t), ih fun x hx => h x (List.mem_cons_of_mem a hx)]

/-! ## The shape of `sanitizeText`'s output -/

theorem sanStep3_mem_allowed {x : Char} {m : List Char} (h : x ∈ sanStep3 m) :
    isAllowed x = true := by
  unfold sanStep3 at h
  obtain ⟨c, _, rfl⟩ := List.mem_map.mp h
  by_cases hc : isAllowed c
  · simp [hc]
  · simp only [if_neg hc]
    decide

theorem sanStep7_spec {m : List Char}
    (hmem : ∀ x ∈ m, isAllowed x = true)
    (hd : hasRun '-' m = false) (hp : hasRun '.' m = false) :
    (∀ x ∈ sanStep7 m, isAllowed x = true) ∧
    (∀ c, (sanStep7 m).head? = some c → isLowerAlnum c = true) ∧
    (∀ c, (sanStep7 m).getLast? = some c → isLowerAlnum c = true) ∧
    hasRun '-' (sanStep7 m) = false ∧ hasRun '.' (sanStep7 m) = false := by
  have hmem' : ∀ x ∈ sanStep7 m, isAllowed x = true := by
    intro x hx
    unfold sanStep7 at hx
    exact hmem x (mem_of_mem_dropWhile (mem_of_mem_rdropWhile hx))
  refine ⟨hmem', ?_, ?_, ?_, ?_⟩
  · intro c hc
    refine allowed_not_dashdot (hmem' c (mem_of_head? hc)) ?_
    unfold sanStep7 at hc
    obtain ⟨t, ht⟩ := exists_rdrop isDashDot (m.dropWhile isDashDot)
    refine head?_dropWhile_not (l := m) (p := isDashDot) ?_
    rw [ht]
    exact head?_append_of_head? hc
  · intro c hc
    refine allowed_not_dashdot (hmem' c (List.mem_of_getLast?_eq_some hc)) ?_
    unfold sanStep7 at hc
    exact getLast?_rdropWhile_not hc
  · unfold sanStep7
    exact hasRun_rdropWhile _ _ (hasRun_dropWhile _ _ hd)
  · unfold sanStep7
    exact hasRun_rdropWhile _ _ (hasRun_dropWhile _ _ hp)

theorem sanitizeChars_spec (l : List Char) :
    (∀ x ∈ sanitizeChars l, isAllowed x = true) ∧
    (∀ c, (sanitizeChars l).head? = some c → isLowerAlnum c = true) ∧
    (∀ c, (sanitizeChars l).getLast? = some c → isLowerAlnum c = true) ∧
    hasRun '-' (sanitizeChars l) = false ∧ hasRun '.' (sanitizeChars l) = false := by
  have h1 : ∀ x ∈ collapseRuns '.' (collapseRuns '-' (sanStep4 (sanStep3 (sanStep2 (sanStep1 l))))),
      isAllowed x = true := by
    intro x hx
    have h2 := mem_collapseRuns (mem_collapseRuns hx)
    unfold sanStep4 at h2
    exact sanStep3_mem_allowed (mem_of_mem_dropWhile (mem_of_mem_rdropWhile h2))
  exact sanStep7_spec h1 (hasRun_collapseRuns (hasRun_collapseRuns_self '-' _))
    (hasRun_collapseRuns_self '.' _)

/-- The transform `sanitizeChars` fixes every list that already has the shape of its own
output, so it is idempotent. -/
theorem sanitizeChars_idem (l : List Char) :
    sanitizeChars (sanitizeChars l) = sanitizeChars l := by
  obtain ⟨hmem, hhead, hlast, hd, hp⟩ := sanitizeChars_spec l
  have h1 : sanStep1 (sanitizeChars l) = sanitizeChars l :=
    flatMap_id_of_mem fun x hx => jsLower_allowed (hmem x hx)
  have h2 : sanStep2 (sanitizeChars l) = sanitizeChars l :=
    map_id_of_mem fun x hx => sanStep2_allowed_id (hmem x hx)
  have h3 : sanStep3 (sanitizeChars l) = sanitizeChars l :=
    map_id_of_mem fun x hx => if_pos (hmem x hx)
  have h4 : sanStep4 (sanitizeChars l) = sanitizeChars l := by
    unfold sanStep4
    rw [dropWhile_eq_self_of_head fun c hc => by simp [hhead c hc],
      rdropWhile_eq_self_of_getLast fun c hc => by simp [hlast c hc]]
  have h5 : collapseRuns '-' (sanitizeChars l) = sanitizeChars l := collapseRuns_eq_self hd
  have h6 : collapseRuns '.' (sanitizeChars l) = sanitizeChars l := collapseRuns_eq_self hp
  have h7 : sanStep7 (sanitizeChars l) = sanitizeChars l := by
    unfold sanStep7
    rw [dropWhile_eq_self_of_head fun c hc => lowerAlnum_not_dashdot (hhead c hc),
      rdropWhile_eq_self_of_getLast fun c hc => lowerAlnum_not_dashdot (hlast c hc)]
  calc sanitizeChars (sanitizeChars l)
      = sanStep7 (collapseRuns '.' (collapseRuns '-' (sanStep4 (sanStep3 (sanStep2 (sanStep1 (sanitizeChars l))))))) := rfl
    _ = sanitizeChars l := by rw [h1, h2, h3, h4, h5, h6, h7]

/-- C2: the sanitization transform is idempotent: for every string `s`,
`sanitizeText (sanitizeText s) = sanitizeText s` (and it is total over any
input string, being a Lean function). -/
theorem sanitize_idempotent (s : String) :
    sanitizeText (sanitizeText s) = sanitizeText s := by
  show (⟨sanitizeChars (sanitizeChars s.data)⟩ : String) = ⟨sanitizeChars s.data⟩
  rw [sanitizeChars_idem]

/-- C3: for every input string `s`, `sanitizeText s` never starts or ends
with `-` or `.`, and never contains the substring `--` or the substring
`..`. -/
theorem sanitize_output_shape (s : String) :
    (∀ c, (sanitizeText s).data.head? = some c → c ≠ '-' ∧ c ≠ '.') ∧
    (∀ c, (sanitizeText s).data.getLast? = some c → c ≠ '-' ∧ c ≠ '.') ∧
    hasRun '-' (sanitizeText s).data = false ∧
    hasRun '.' (sanitizeText s).data = false := by
  obtain ⟨_, hhead, hlast, hd, hp⟩ := sanitizeChars_spec s.data
  have hne : ∀ c : Char, isLowerAlnum c = true → c ≠ '-' ∧ c ≠ '.' := by
    rintro c h
    constructor <;> rintro rfl <;> exact absurd h (by decide)
  exact ⟨fun c hc => hne c (hhead c hc), fun c hc => hne c (hlast c hc), hd, hp⟩

/-- Witness for C3 at the concrete input `"My_Script!!2"`, whose sanitized
form is `"my-script-2"`: head `'m'`, last `'2'`, no `--` and no `..`. -/
theorem sanitize_output_shape_witness :
    ('m' ≠ '-' ∧ 'm' ≠ '.') ∧ ('2' ≠ '-' ∧ '2' ≠ '.') ∧
    hasRun '-' (sanitizeText "My_Script!!2").data = false ∧
    hasRun '.' (sanitizeText "My_Script!!2").data = false := by
  obtain ⟨h1, h2, h3, h4⟩ := sanitize_output_shape "My_Script!!2"
  exact ⟨h1 'm' (by decide), h2 '2' (by decide), h3, h4⟩

/-- A string none of whose characters lowercases to an ASCII
alphanumeric sanitizes to the empty list: after the replacement steps
every character is `-` or `.`, and the leading-trim removes all of
them. -/
theorem sanitizeChars_nonalnum_nil {l : List Char}
    (h : ∀ c ∈ l, ∀ d ∈ jsLower c, isLowerAlnum d = false) : sanitizeChars l = [] := by
  have h3 : ∀ x ∈ sanStep3 (sanStep2 (sanStep1 l)), isLowerAlnum x = false := by
    intro x hx
    unfold sanStep3 sanStep2 sanStep1 at hx
    obtain ⟨b, hb, rfl⟩ := List.mem_map.mp hx
    obtain ⟨a, ha, rfl⟩ := List.mem_map.mp hb
    obtain ⟨c, hc, hac⟩ := List.mem_flatMap.mp ha
    have h1 := h c hc a hac
    have h2 : isLowerAlnum (if a = '_' then '-' else a) = false := by
      by_cases hu : a = '_'
      · rw [if_pos hu]; decide
      · rw [if_neg hu]; exact h1
    by_cases hal : isAllowed (if a = '_' then '-' else a)
    · rw [if_pos hal]; exact h2
    · rw [if_neg hal]; decide
  have hnil : (sanStep3 (sanStep2 (sanStep1 l))).dropWhile (fun c => !isLowerAlnum c) = [] := by
    rw [List.dropWhile_eq_nil_iff]
    intro x hx
    simp [h3 x hx]
  unfold sanitizeChars sanStep4
  rw [hnil, List.rdropWhile_nil]
  show sanStep7 [] = []
  unfold sanStep7
  rw [List.dropWhile_nil, List.rdropWhile_nil]

/-! ## Decimal rendering of `Date.now()`

The archive filename interpolates `Date.now()` (a natural number of epoch
milliseconds) with a JS template literal, which renders it in decimal.
`natDec` is that rendering, by structural recursion on a fuel bound. -/

/-- The character of a decimal digit `d < 10`. -/
def decDigitChar (d : Nat) : Char := Char.ofNat (48 + d)

/-- Most-significant-first decimal digits of `n`, prepended to `acc`;
`fuel > n` suffices for full rendering. -/
def natDecCore : Nat → Nat → List Char → List Char
  | 0, _, acc => acc
  | fuel + 1, n, acc =>
    if n < 10 then decDigitChar n :: acc
    else natDecCore fuel (n / 10) (decDigitChar (n % 10) :: acc)

/-- The decimal rendering of `n`, as interpolated by the template literal
`` `archive-(...)-${Date.now()}.tar` ``. -/
def natDec (n : Nat) : String := ⟨natDecCore (n + 1) n []⟩

example : natDec 0 = "0" := by decide

example : natDec 1736964000123 = "1736964000123" := by decide

/-- The numeric value of most-significant-first decimal digit characters
(inverse of `natDec`, used to prove `natDec` injective). -/
def decValue (l : List Char) : Nat :=
  l.foldl (fun a c => a * 10 + (c.toNat - 48)) 0

theorem decDigitChar_toNat {m : Nat} (h : m < 10) : (decDigitChar m).toNat = 48 + m := by
  interval_cases m <;> decide

theorem natDecCore_acc (fuel : Nat) :
    ∀ n acc, natDecCore fuel n acc = natDecCore fuel n [] ++ acc := by
  induction fuel with
  | zero => intro n acc; rfl
  | succ fuel ih =>
    intro n acc
    by_cases h : n < 10
    · simp only [natDecCore, if_pos h]
      rfl
    · simp only [natDecCore, if_neg h]
      rw [ih (n / 10) (decDigitChar (n % 10) :: acc), ih (n / 10) [decDigitChar (n % 10)]]
      simp [List.append_assoc]

theorem natDecCore_spec (fuel : Nat) : ∀ n, n < fuel →
    natDecCore fuel n [] ≠ [] ∧
    (∀ c ∈ natDecCore fuel n [], 48 ≤ c.toNat ∧ c.toNat ≤ 57) ∧
    decValue (natDecCore fuel n []) = n := by
  induction fuel with
  | zero => intro n h; exact absurd h (Nat.not_lt_zero n)
  | succ fuel ih =>
    intro n hn
    by_cases h : n < 10
    · simp only [natDecCore, if_pos h]
      refine ⟨by simp, ?_, ?_⟩
      · intro c hc
        rw [List.mem_singleton] at hc
        subst hc
        rw [decDigitChar_toNat h]
        omega
      · show decValue [decDigitChar n] = n
        unfold decValue
        simp only [List.foldl_cons, List.foldl_nil, Nat.zero_mul, Nat.zero_add]
        rw [decDigitChar_toNat h]
        omega
    · simp only [natDecCore, if_neg h]
      have hdiv : n / 10 < fuel := by
        have := Nat.div_lt_self (by omega : 0 < n) (by omega : 1 < 10)
        omega
      obtain ⟨hne, hdig, hval⟩ := ih (n / 10) hdiv
      rw [natDecCore_acc fuel (n / 10) [decDigitChar (n % 10)]]
      have hm : n % 10 < 10 := Nat.mod_lt _ (by omega)
      refine ⟨by simp, ?_, ?_⟩
      · intro c hc
        rw [List.mem_append] at hc
        rcases hc with hc | hc
        · exact hdig c hc
        · rw [List.mem_singleton] at hc
          subst hc
          rw [decDigitChar_toNat hm]
          omega
      · unfold decValue at hval ⊢
        rw [List.foldl_append, hval]
        simp only [List.foldl_cons, List.foldl_nil]
        rw [decDigitChar_toNat hm]
        omega

theorem natDec_ne_nil (n : Nat) : (natDec n).data ≠ [] :=
  (natDecCore_spec (n + 1) n (by omega)).1

theorem natDec_digits (n : Nat) : ∀ c ∈ (natDec n).data, 48 ≤ c.toNat ∧ c.toNat ≤ 57 :=
  (natDecCore_spec (n + 1) n (by omega)).2.1

theorem natDec_inj {a b : Nat} (h : natDec a = natDec b) : a = b := by
  have ha := (natDecCore_spec (a + 1) a (by omega)).2.2
  have hb := (natDecCore_spec (b + 1) b (by omega)).2.2
  have hdata : natDecCore (a + 1) a [] = natDecCore (b + 1) b [] :=
    congrArg String.data h
  rw [← ha, ← hb, hdata]

/-! ## Node `path` helpers used by the code

`basename`, `parse(..).name` and `join` are modelled for POSIX paths:
`basename` trims trailing separators and keeps what follows the last
remaining separator; `parse(..).name` strips the extension of the base
name, where the extension starts at the last `.` that is not the first
character of the base name (with `..` kept whole); `join` is modelled for
directory arguments without internal dot-segments, which is all the
service composes. -/

def baseNameChars (l : List Char) : List Char :=
  (((l.rdropWhile fun c => c == '/').reverse.takeWhile fun c => !(c == '/')).reverse)

/-- Node `path.basename`. -/
def baseName (s : String) : String := ⟨baseNameChars s.data⟩

/-- Index of the last `.` of the list, if any. -/
def lastDotIndex : List Char → Option Nat
  | [] => none
  | c :: rest =>
    match lastDotIndex rest with
    | some i => some (i + 1)
    | none => if c = '.' then some 0 else none

def stripExtChars (l : List Char) : List Char :=
  match lastDotIndex (baseNameChars l) with
  | none => baseNameChars l
  | some i =>
    if i = 0 ∨ baseNameChars l = ['.', '.'] then baseNameChars l
    else (baseNameChars l).take i

/-- Node `path.parse(p).name`: the base name without its extension. -/
def pathParseName (s : String) : String := ⟨stripExtChars s.data⟩

example : pathParseName "/tmp/scripts/sample.test.js" = "sample.test" := by decide

example : pathParseName "archive--7.tar" = "archive--7" := by decide

example : pathParseName ".env" = ".env" := by decide

/-- Node `path.join(dir, f)` for the shapes the service builds:
`join('.', f) = f`, and otherwise the directory and the file name joined
with a single separator. -/
def joinPath (dir f : String) : String :=
  if dir = "." ∨ dir = "" then f
  else if dir.data.getLast? = some '/' then dir ++ f
  else dir ++ "/" ++ f

example : joinPath "." "archive-x-1.tar" = "archive-x-1.tar" := by decide

example : joinPath "/out/" "a.tar" = "/out/a.tar" := by decide

example : joinPath "out" "a.tar" = "out/a.tar" := by decide

/-! ## Base64

`fs_promises.readFile(path, 'base64')` returns the standard padded base64
encoding of the file's bytes. -/

def base64Alphabet : List Char :=
  "ABCDEFGHIJKLMNOPQRSTUVWXYZabcdefghijklmnopqrstuvwxyz0123456789+/".data

def b64char (n : Nat) : Char := base64Alphabet.getD n 'A'

def base64Encode : List Nat → List Char
  | [] => []
  | [b1] => [b64char (b1 / 4), b64char (b1 % 4 * 16), '=', '=']
  | [b1, b2] => [b64char (b1 / 4), b64char (b1 % 4 * 16 + b2 / 16), b64char (b2 % 16 * 4), '=']
  | b1 :: b2 :: b3 :: rest =>
    b64char (b1 / 4) :: b64char (b1 % 4 * 16 + b2 / 16) ::
      b64char (b2 % 16 * 4 + b3 / 64) :: b64char (b3 % 64) :: base64Encode rest

/-- Standard padded base64 of a byte list. -/
def base64 (bytes : List Nat) : String := ⟨base64Encode bytes⟩

example : base64 [77, 97, 110] = "TWFu" := by decide

example : base64 [77, 97] = "TWE=" := by decide

/-! ## The service's data model (`script.service.ts`) -/

structure ArchiveResult where
  archivePath : String
  archiveFilename : String
  scriptPath : String
  scriptFilename : String
deriving Repr, DecidableEq

structure ConfigMapResult where
  «namespace» : String
  configMapName : String
  archivePath : String
  archiveFilename : String
deriving Repr, DecidableEq

/-- The body passed to `createNamespacedConfigMap`:
`{apiVersion, kind, metadata: {name, namespace}, binaryData}`, with the
binary-payload map as an association list. -/
structure ConfigMapRequest where
  apiVersion : String
  kind : String
  name : String
  «namespace» : String
  binaryData : List (String × String)
deriving Repr, DecidableEq

/-- The error kinds the service throws (spec §7 taxonomy, carrying the
offending path/name/size or the wrapped message). -/
inductive SvcError where
  | scriptNotFound (path : String)
  | outputDirectoryNotFound (path : String)
  | toolNotInstalled
  | archiveCreationFailed (msg : String)
  | archiveNotFound (path : String)
  | archiveTooLarge (size : Nat)
  | publishFailed (msg : String)
  | retractFailed (name ns msg : String)
deriving Repr, DecidableEq

/-- One observable external effect: a subprocess invocation or a cluster
API call (filesystem writes happen only inside the archive subprocess). -/
inductive Effect where
  | execProbe
  | execArchive (cmd : String)
  | apiCreate (req : ConfigMapRequest)
  | apiDelete (name ns : String)
deriving Repr, DecidableEq

/-- The outcome of every external observation the service can make: the
filesystem, the `k6` binary, the clock and the cluster API, fixed up
front so each service function becomes a pure function of the world. -/
structure World where
  /-- Result of `existsSync` before the archive subprocess runs. -/
  fileExists : String → Bool
  /-- Whether the `k6 version` probe succeeds. -/
  k6Installed : Bool
  /-- Result of `Date.now()`, epoch milliseconds. -/
  now : Nat
  /-- Whether the `k6 archive` subprocess exits successfully. -/
  archiveExecOk : Bool
  /-- Result of `existsSync` after the archive subprocess ran. -/
  fileExistsAfter : String → Bool
  /-- Result of `fs.stat(..).size`, bytes. -/
  fileSize : String → Nat
  /-- Result of `fs.readFile`: the file's bytes. -/
  fileBytes : String → List Nat
  /-- Whether `createNamespacedConfigMap` succeeds. -/
  createOk : Bool
  createErrMsg : String
  /-- Whether `deleteNamespacedConfigMap` succeeds. -/
  deleteOk : Bool
  deleteErrMsg : String

/-- JS `if (outputDirectory)` guard plus the `existsSync` check: the
output directory was supplied (and truthy, i.e. non-empty) but does not
exist. -/
def dirMissing (w : World) : Option String → Bool
  | some d => !(d == "") && !w.fileExists d
  | none => false

/-- The function `archiveTest(scriptPath, outputDirectory?)` (lines 23–68), returning
the thrown error or the `ArchiveResult`, paired with the ordered external
effects performed. -/
def archiveTest (w : World) (scriptPath : String) (outputDirectory : Option String) :
    Except SvcError ArchiveResult × List Effect :=
  if !w.fileExists scriptPath then
    (.error (.scriptNotFound scriptPath), [])
  else if dirMissing w outputDirectory then
    (.error (.outputDirectoryNotFound (outputDirectory.getD "")), [])
  else if !w.k6Installed then
    (.error .toolNotInstalled, [.execProbe])
  else
    let sanitizedScriptName := sanitizeText (pathParseName scriptPath)
    let archiveOutput := joinPath (outputDirectory.getD ".")
      ("archive-" ++ sanitizedScriptName ++ "-" ++ natDec w.now ++ ".tar")
    let archiveCommand := "k6 archive -v -O " ++ archiveOutput ++ " " ++ scriptPath
    if !w.archiveExecOk then
      (.error (.archiveCreationFailed archiveCommand), [.execProbe, .execArchive archiveCommand])
    else if !w.fileExistsAfter archiveOutput then
      (.error (.archiveCreationFailed archiveCommand), [.execProbe, .execArchive archiveCommand])
    else
      (.ok { archivePath := archiveOutput, archiveFilename := baseName archiveOutput,
             scriptPath := scriptPath, scriptFilename := baseName scriptPath },
       [.execProbe, .execArchive archiveCommand])

/-- The function `createConfigMap(archiveResult, namespace)` (lines 70–108). -/
def createConfigMap (w : World) (archiveResult : ArchiveResult) (ns : String) :
    Except SvcError ConfigMapResult × List Effect :=
  if !w.fileExists archiveResult.archivePath then
    (.error (.archiveNotFound archiveResult.archivePath), [])
  else if w.fileSize archiveResult.archivePath > 1024 * 1024 then
    (.error (.archiveTooLarge (w.fileSize archiveResult.archivePath)), [])
  else
    let configMapName := pathParseName archiveResult.archiveFilename
    let fileContent := base64 (w.fileBytes archiveResult.archivePath)
    let req : ConfigMapRequest :=
      { apiVersion := "v1", kind := "ConfigMap", name := configMapName,
        «namespace» := ns,
        binaryData := [(archiveResult.archiveFilename, fileContent)] }
    if !w.createOk then
      (.error (.publishFailed w.createErrMsg), [.apiCreate req])
    else
      (.ok { «namespace» := ns, configMapName := configMapName,
             archivePath := archiveResult.archivePath,
             archiveFilename := archiveResult.archiveFilename },
       [.apiCreate req])

/-- The function `deleteConfigMap(configMapName, namespace)` (lines 110–123): a single
delete call, wrapped in `RetractFailed` on failure. -/
def deleteConfigMap (w : World) (configMapName ns : String) :
    Except SvcError Unit × List Effect :=
  if !w.deleteOk then
    (.error (.retractFailed configMapName ns w.deleteErrMsg), [.apiDelete configMapName ns])
  else
    (.ok (), [.apiDelete configMapName ns])

instance {ε α : Type} [DecidableEq ε] [DecidableEq α] : DecidableEq (Except ε α) := by
  intro a b
  cases a <;> cases b <;> first
    | exact isFalse (by intro h; exact Except.noConfusion h)
    | exact decidable_of_iff _ (by constructor <;> (intro h; first | exact congrArg _ h | injection h))

/-- A world in which `sample.js` exists, `k6` is installed and every
external step succeeds. -/
def wGood : World :=
  { fileExists := fun p => p == "sample.js", k6Installed := true, now := 17,
    archiveExecOk := true, fileExistsAfter := fun _ => true,
    fileSize := fun _ => 64, fileBytes := fun _ => [77, 97, 110],
    createOk := true, createErrMsg := "", deleteOk := true, deleteErrMsg := "" }

example :
    (archiveTest wGood "sample.js" none).1 =
      .ok { archivePath := "archive-sample-17.tar", archiveFilename := "archive-sample-17.tar",
            scriptPath := "sample.js", scriptFilename := "sample.js" } := by decide

/-! ## Shapes of the successful runs -/

/-- The archive path `archiveTest` composes (the `archiveOutput` of line 45). -/
def archivePathOf (w : World) (sp : String) (od : Option String) : String :=
  joinPath (od.getD ".")
    ("archive-" ++ sanitizeText (pathParseName sp) ++ "-" ++ natDec w.now ++ ".tar")

theorem archiveTest_ok_shape {w : World} {sp : String} {od : Option String} {r : ArchiveResult}
    (h : (archiveTest w sp od).1 = .ok r) :
    r = { archivePath := archivePathOf w sp od,
          archiveFilename := baseName (archivePathOf w sp od),
          scriptPath := sp, scriptFilename := baseName sp } ∧
    w.fileExistsAfter (archivePathOf w sp od) = true := by
  simp only [archiveTest] at h
  rw [show joinPath (od.getD ".")
        ("archive-" ++ sanitizeText (pathParseName sp) ++ "-" ++ natDec w.now ++ ".tar") =
      archivePathOf w sp od from rfl] at h
  by_cases h1 : w.fileExists sp <;>
    by_cases h2 : dirMissing w od <;>
      by_cases h3 : w.k6Installed <;>
        by_cases h4 : w.archiveExecOk <;>
          by_cases h5 : w.fileExistsAfter (archivePathOf w sp od) <;>
            simp only [h1, h2, h3, h4, h5, Bool.not_true, Bool.not_false, if_true,
              if_false, Bool.false_eq_true, Bool.true_eq_false] at h ⊢ <;>
              first
                | exact Except.noConfusion h
                | exact ⟨(Except.ok.inj h).symm, by simp [h5]⟩

theorem createConfigMap_ok_shape {w : World} {ar : ArchiveResult} {ns : String}
    {res : ConfigMapResult} (h : (createConfigMap w ar ns).1 = .ok res) :
    res = { «namespace» := ns, configMapName := pathParseName ar.archiveFilename,
            archivePath := ar.archivePath, archiveFilename := ar.archiveFilename } ∧
    (createConfigMap w ar ns).2 =
      [.apiCreate { apiVersion := "v1", kind := "ConfigMap",
                    name := pathParseName ar.archiveFilename, «namespace» := ns,
                    binaryData := [(ar.archiveFilename, base64 (w.fileBytes ar.archivePath))] }] := by
  by_cases h1 : w.fileExists ar.archivePath <;>
    by_cases h2 : w.fileSize ar.archivePath > 1024 * 1024 <;>
      by_cases h3 : w.createOk <;>
        simp only [createConfigMap, h1, h2, h3, Bool.not_true, Bool.not_false, if_true,
          if_false, Bool.false_eq_true, Bool.true_eq_false] at h ⊢ <;>
          first
            | exact Except.noConfusion h
            | exact ⟨(Except.ok.inj h).symm, by trivial⟩

/-! ## Worlds used by witnesses and counterexamples -/

/-- A world in which the archive file exists and publishing succeeds. -/
def wPub : World :=
  { fileExists := fun _ => true, k6Installed := true, now := 17,
    archiveExecOk := true, fileExistsAfter := fun _ => true,
    fileSize := fun _ => 64, fileBytes := fun _ => [77, 97, 110],
    createOk := true, createErrMsg := "", deleteOk := true, deleteErrMsg := "" }

/-- A world in which nothing external works: no files, no `k6`, failing
cluster API. -/
def wBad : World :=
  { fileExists := fun _ => false, k6Installed := false, now := 0,
    archiveExecOk := false, fileExistsAfter := fun _ => false,
    fileSize := fun _ => 0, fileBytes := fun _ => [],
    createOk := false, createErrMsg := "denied", deleteOk := false, deleteErrMsg := "boom" }

/-- A world in which `s.js` exists but `k6` is not installed. -/
def wNoK6 : World :=
  { fileExists := fun p => p == "s.js", k6Installed := false, now := 0,
    archiveExecOk := false, fileExistsAfter := fun _ => false,
    fileSize := fun _ => 0, fileBytes := fun _ => [],
    createOk := false, createErrMsg := "", deleteOk := false, deleteErrMsg := "" }

/-- The `ArchiveResult` of `archiveTest wGood "sample.js" none`. -/
def arSample : ArchiveResult :=
  { archivePath := "archive-sample-17.tar", archiveFilename := "archive-sample-17.tar",
    scriptPath := "sample.js", scriptFilename := "sample.js" }

/-! ## C4: shape of a successful archive result -/

/-- C4: every successful `archiveTest` call returns an `ArchiveResult`
whose `archivePath` is the output directory (or `"."` if none was given)
joined with `archive-<sanitized script base name>-<epoch millis>.tar`,
whose `archiveFilename` is the base name of `archivePath`, and whose
`archivePath` passes the post-subprocess existence check at the moment
the result is returned. -/
theorem archive_success_shape {w : World} {sp : String} {od : Option String}
    {r : ArchiveResult} (h : (archiveTest w sp od).1 = .ok r) :
    r.archivePath = joinPath (od.getD ".")
        ("archive-" ++ sanitizeText (pathParseName sp) ++ "-" ++ natDec w.now ++ ".tar") ∧
    r.archiveFilename = baseName r.archivePath ∧
    w.fileExistsAfter r.archivePath = true := by
  obtain ⟨rfl, hex⟩ := archiveTest_ok_shape h
  exact ⟨rfl, rfl, hex⟩

/-- Witness for C4: the concrete run of `wGood` on `sample.js`. -/
theorem archive_success_shape_witness :
    arSample.archivePath = joinPath ((none : Option String).getD ".")
        ("archive-" ++ sanitizeText (pathParseName "sample.js") ++ "-" ++ natDec wGood.now ++ ".tar") ∧
    arSample.archiveFilename = baseName arSample.archivePath ∧
    wGood.fileExistsAfter arSample.archivePath = true :=
  @archive_success_shape wGood "sample.js" none arSample (by decide)

/-! ## C5: fail-fast preconditions of `archiveTest` (corrected) -/

/-- Counterexample to C5 as stated: `outputDirectory = ""` is supplied
and does not exist (`existsSync "" = false`), yet the code's JS
truthiness guard `if (outputDirectory)` skips the directory check and
proceeds to the tool probe, failing with `toolNotInstalled` instead of
`outputDirectoryNotFound`. -/
theorem archive_fail_fast_cex :
    wNoK6.fileExists "" = false ∧
    (archiveTest wNoK6 "s.js" (some "")).1 = .error .toolNotInstalled ∧
    ¬(archiveTest wNoK6 "s.js" (some "")).1 = .error (.outputDirectoryNotFound "") := by
  refine ⟨rfl, by decide, by decide⟩

/-- C5 (amended: the output-directory check applies to a supplied
*non-empty* directory, since the code guards it with JS truthiness):
the preconditions are checked in order, each failing before any
subprocess invocation, and no archive subprocess is spawned (hence no
file written) on any of the three failures. -/
theorem archive_fail_fast (w : World) (sp : String) (od : Option String) :
    (w.fileExists sp = false →
      (archiveTest w sp od).1 = .error (.scriptNotFound sp) ∧
      (archiveTest w sp od).2 = []) ∧
    (∀ d, w.fileExists sp = true → od = some d → d ≠ "" → w.fileExists d = false →
      (archiveTest w sp od).1 = .error (.outputDirectoryNotFound d) ∧
      (archiveTest w sp od).2 = []) ∧
    (w.fileExists sp = true → dirMissing w od = false → w.k6Installed = false →
      (archiveTest w sp od).1 = .error .toolNotInstalled ∧
      (archiveTest w sp od).2 = [.execProbe]) := by
  refine ⟨fun h1 => ?_, fun d h1 hod hd hex => ?_, fun h1 h2 h3 => ?_⟩
  · constructor <;> simp [archiveTest, h1]
  · subst hod
    have hm : dirMissing w (some d) = true := by
      simp [dirMissing, hd, hex]
    constructor <;> simp [archiveTest, h1, hm]
  · constructor <;> simp [archiveTest, h1, h2, h3]

/-- Witness for C5's amended theorem: the three failure modes at concrete
worlds. -/
theorem archive_fail_fast_witness :
    ((archiveTest wBad "s.js" none).1 = .error (.scriptNotFound "s.js") ∧
      (archiveTest wBad "s.js" none).2 = []) ∧
    ((archiveTest wNoK6 "s.js" (some "out")).1 = .error (.outputDirectoryNotFound "out") ∧
      (archiveTest wNoK6 "s.js" (some "out")).2 = []) ∧
    ((archiveTest wNoK6 "s.js" none).1 = .error .toolNotInstalled ∧
      (archiveTest wNoK6 "s.js" none).2 = [.execProbe]) :=
  ⟨(archive_fail_fast wBad "s.js" none).1 (by decide),
   (archive_fail_fast wNoK6 "s.js" (some "out")).2.1 "out" (by decide) rfl (by decide) (by decide),
   (archive_fail_fast wNoK6 "s.js" none).2.2 (by decide) (by decide) (by decide)⟩

/-! ## C6: fail-fast preconditions of `createConfigMap` -/

/-- C6: publish fails with `archiveNotFound` when the archive file is
gone and with `archiveTooLarge` when it exceeds 1 MiB (1048576 bytes),
in both cases submitting no create request; a size of at most 1 MiB
passes the size check (the strict `>` comparison of line 77). -/
theorem publish_fail_fast (w : World) (ar : ArchiveResult) (ns : String) :
    (w.fileExists ar.archivePath = false →
      (createConfigMap w ar ns).1 = .error (.archiveNotFound ar.archivePath) ∧
      (createConfigMap w ar ns).2 = []) ∧
    (w.fileExists ar.archivePath = true → w.fileSize ar.archivePath > 1048576 →
      (createConfigMap w ar ns).1 = .error (.archiveTooLarge (w.fileSize ar.archivePath)) ∧
      (createConfigMap w ar ns).2 = []) ∧
    (w.fileExists ar.archivePath = true → w.fileSize ar.archivePath ≤ 1048576 →
      ∀ s, ¬(createConfigMap w ar ns).1 = .error (.archiveTooLarge s)) := by
  refine ⟨fun h1 => ?_, fun h1 h2 => ?_, fun h1 h2 s => ?_⟩
  · constructor <;> simp [createConfigMap, h1]
  · constructor <;>
      simp [createConfigMap, h1, show w.fileSize ar.archivePath > 1024 * 1024 by omega]
  · have h2' : ¬w.fileSize ar.archivePath > 1024 * 1024 := by omega
    by_cases h3 : w.createOk <;> simp [createConfigMap, h1, h2', h3]

/-- A world with an existing archive of 1 MiB + 1 byte. -/
def wBig : World :=
  { wPub with fileSize := fun _ => 1048577 }

/-- A world with an existing archive of exactly 1 MiB. -/
def wFull : World :=
  { wPub with fileSize := fun _ => 1048576 }

/-- Witness for C6: the missing-archive case, an oversized archive
(1 MiB + 1 byte), and a 1 MiB archive passing the size check. -/
theorem publish_fail_fast_witness :
    ((createConfigMap wBad arSample "default").1 =
        .error (.archiveNotFound "archive-sample-17.tar") ∧
      (createConfigMap wBad arSample "default").2 = []) ∧
    ((createConfigMap wBig arSample "default").1 = .error (.archiveTooLarge 1048577) ∧
      (createConfigMap wBig arSample "default").2 = []) ∧
    ¬(createConfigMap wFull arSample "default").1 = .error (.archiveTooLarge 1048576) :=
  ⟨(publish_fail_fast wBad arSample "default").1 (by decide),
   (publish_fail_fast wBig arSample "default").2.1 (by decide) (by decide),
   (publish_fail_fast wFull arSample "default").2.2 (by decide) (by decide) 1048576⟩

/-! ## C7: the create request of a successful publish -/

/-- C7: on every successful publish, exactly one create request is
submitted, a namespaced `v1`/`ConfigMap` resource named by the returned
`configMapName` in the given namespace, whose binary-payload map has
exactly one entry, keyed by the archive filename and valued by the
base64 encoding of the archive file's contents. -/
theorem publish_request_shape {w : World} {ar : ArchiveResult} {ns : String}
    {res : ConfigMapResult} (h : (createConfigMap w ar ns).1 = .ok res) :
    (createConfigMap w ar ns).2 =
      [.apiCreate { apiVersion := "v1", kind := "ConfigMap",
                    name := res.configMapName, «namespace» := ns,
                    binaryData := [(ar.archiveFilename, base64 (w.fileBytes ar.archivePath))] }] := by
  obtain ⟨rfl, htrace⟩ := createConfigMap_ok_shape h
  exact htrace

/-- Witness for C7: the concrete publish of `arSample` in `wPub`. -/
theorem publish_request_shape_witness :
    (createConfigMap wPub arSample "default").2 =
      [.apiCreate { apiVersion := "v1", kind := "ConfigMap",
                    name := "archive-sample-17", «namespace» := "default",
                    binaryData := [("archive-sample-17.tar", "TWFu")] }] := by
  have h := @publish_request_shape wPub arSample "default"
    ({ «namespace» := "default", configMapName := "archive-sample-17",
       archivePath := "archive-sample-17.tar",
       archiveFilename := "archive-sample-17.tar" } : ConfigMapResult) (by decide)
  rw [h]
  decide

/-! ## C9: retract is a single attempt -/

/-- C9: `deleteConfigMap` performs exactly one delete call for the given
name and namespace (no internal retry); on remote failure it fails with
`retractFailed` wrapping the transport error message, and on success it
returns unit. -/
theorem retract_single_attempt (w : World) (configMapName ns : String) :
    (deleteConfigMap w configMapName ns).2 = [.apiDelete configMapName ns] ∧
    (w.deleteOk = false →
      (deleteConfigMap w configMapName ns).1 =
        .error (.retractFailed configMapName ns w.deleteErrMsg)) ∧
    (w.deleteOk = true → (deleteConfigMap w configMapName ns).1 = .ok ()) := by
  refine ⟨?_, fun h => ?_, fun h => ?_⟩
  · by_cases h : w.deleteOk <;> simp [deleteConfigMap, h]
  · simp [deleteConfigMap, h]
  · simp [deleteConfigMap, h]

/-- Witness for C9: one successful and one failing delete. -/
theorem retract_single_attempt_witness :
    (deleteConfigMap wPub "cm" "default").1 = .ok () ∧
    (deleteConfigMap wBad "cm" "default").1 =
      .error (.retractFailed "cm" "default" "boom") ∧
    (deleteConfigMap wBad "cm" "default").2 = [.apiDelete "cm" "default"] :=
  ⟨(retract_single_attempt wPub "cm" "default").2.2 (by decide),
   (retract_single_attempt wBad "cm" "default").2.1 (by decide),
   (retract_single_attempt wBad "cm" "default").1⟩

/-! ## C8: distinct timestamps give distinct archive paths -/

theorem natDec_data_inj {a b : Nat} (h : (natDec a).data = (natDec b).data) : a = b :=
  natDec_inj (String.ext h)

theorem joinPath_inj {dir f1 f2 : String} (h : joinPath dir f1 = joinPath dir f2) :
    f1 = f2 := by
  unfold joinPath at h
  by_cases h1 : dir = "." ∨ dir = ""
  · rwa [if_pos h1, if_pos h1] at h
  · rw [if_neg h1, if_neg h1] at h
    by_cases h2 : dir.data.getLast? = some '/'
    · rw [if_pos h2, if_pos h2] at h
      have hd := congrArg String.data h
      simp only [String.data_append] at hd
      exact String.ext (List.append_cancel_left hd)
    · rw [if_neg h2, if_neg h2] at h
      have hd := congrArg String.data h
      simp only [String.data_append] at hd
      rw [List.append_assoc, List.append_assoc] at hd
      exact String.ext (List.append_cancel_left (List.append_cancel_left hd))

theorem archivePathOf_now_inj {w1 w2 : World} {sp : String} {od : Option String}
    (h : archivePathOf w1 sp od = archivePathOf w2 sp od) : w1.now = w2.now := by
  unfold archivePathOf at h
  have hj := joinPath_inj h
  have hd := congrArg String.data hj
  simp only [String.data_append] at hd
  have hd2 := List.append_cancel_right hd
  exact natDec_data_inj (List.append_cancel_left hd2)

/-- C8: two successful archive calls on the same script and output
directory whose `Date.now()` readings differ produce distinct
`archivePath` values: the epoch-millis suffix of the filename determines
the timestamp, so it separates the two paths. -/
theorem archive_distinct_paths {w1 w2 : World} {sp : String} {od : Option String}
    {r1 r2 : ArchiveResult}
    (h1 : (archiveTest w1 sp od).1 = .ok r1) (h2 : (archiveTest w2 sp od).1 = .ok r2)
    (hne : w1.now ≠ w2.now) :
    r1.archivePath ≠ r2.archivePath := by
  obtain ⟨rfl, -⟩ := archiveTest_ok_shape h1
  obtain ⟨rfl, -⟩ := archiveTest_ok_shape h2
  intro hcontra
  exact hne (archivePathOf_now_inj hcontra)

/-- The world of the second archive call: one millisecond later. -/
def wGood2 : World := { wGood with now := 18 }

/-- The `ArchiveResult` of `archiveTest wGood2 "sample.js" none`. -/
def arSample2 : ArchiveResult :=
  { archivePath := "archive-sample-18.tar", archiveFilename := "archive-sample-18.tar",
    scriptPath := "sample.js", scriptFilename := "sample.js" }

/-- Witness for C8: archiving `sample.js` at `t = 17` and `t = 18` yields
`archive-sample-17.tar` and `archive-sample-18.tar`. -/
theorem archive_distinct_paths_witness :
    arSample.archivePath ≠ arSample2.archivePath :=
  @archive_distinct_paths wGood wGood2 "sample.js" none arSample arSample2
    (by decide) (by decide) (by decide)

/-! ## Lemmas about `baseName` and `pathParseName` on composed paths -/

theorem takeWhile_all {p : Char → Bool} {l : List Char} (h : ∀ c ∈ l, p c = true) :
    l.takeWhile p = l := by
  induction l with
  | nil => rfl
  | cons a t ih =>
    rw [List.takeWhile_cons, if_pos (h a (List.mem_cons_self a t))]
    rw [ih fun c hc => h c (List.mem_cons_of_mem a hc)]

theorem takeWhile_append_stop {p : Char → Bool} {l1 : List Char} (x : Char) (l2 : List Char)
    (h1 : ∀ c ∈ l1, p c = true) (hx : p x = false) :
    (l1 ++ x :: l2).takeWhile p = l1 := by
  induction l1 with
  | nil =>
    rw [List.nil_append, List.takeWhile_cons, if_neg (by simp [hx])]
  | cons a t ih =>
    rw [List.cons_append, List.takeWhile_cons, if_pos (h1 a (List.mem_cons_self a t))]
    rw [ih fun c hc => h1 c (List.mem_cons_of_mem a hc)]

theorem baseNameChars_no_slash {l : List Char} (hf : ∀ c ∈ l, (c == '/') = false) :
    baseNameChars l = l := by
  unfold baseNameChars
  rw [rdropWhile_eq_self_of_getLast fun c hc => hf c (List.mem_of_getLast?_eq_some hc)]
  rw [takeWhile_all fun c hc => by simp [hf c (List.mem_reverse.mp hc)]]
  exact List.reverse_reverse l

theorem baseNameChars_append_sep {d f : List Char}
    (hf : ∀ c ∈ f, (c == '/') = false) (hne : f ≠ []) :
    baseNameChars (d ++ '/' :: f) = f := by
  unfold baseNameChars
  have h1 : (d ++ '/' :: f).rdropWhile (fun c => c == '/') = d ++ '/' :: f := by
    apply rdropWhile_eq_self_of_getLast
    intro c hc
    rw [List.getLast?_append] at hc
    have hfl : ('/' :: f).getLast? = f.getLast? := by
      cases f with
      | nil => exact absurd rfl hne
      | cons a t => rfl
    rw [hfl] at hc
    cases hfy : f.getLast? with
    | none => exact absurd (List.getLast?_eq_none_iff.mp hfy) hne
    | some y =>
      rw [hfy] at hc
      simp only [Option.or_some, Option.some.injEq] at hc
      subst hc
      exact hf y (List.mem_of_getLast?_eq_some hfy)
  rw [h1]
  have h2 : (d ++ '/' :: f).reverse = f.reverse ++ '/' :: d.reverse := by
    rw [List.reverse_append, List.reverse_cons, List.append_assoc]
    rfl
  rw [h2, takeWhile_append_stop '/' d.reverse
    (fun c hc => by simp [hf c (List.mem_reverse.mp hc)]) (by decide)]
  exact List.reverse_reverse f

theorem lastDotIndex_none {l : List Char} (h : ∀ c ∈ l, c ≠ '.') :
    lastDotIndex l = none := by
  induction l with
  | nil => rfl
  | cons a t ih =>
    simp only [lastDotIndex, ih fun c hc => h c (List.mem_cons_of_mem a hc)]
    rw [if_neg (h a (List.mem_cons_self a t))]

theorem lastDotIndex_append_dot {l1 l2 : List Char} (h : ∀ c ∈ l2, c ≠ '.') :
    lastDotIndex (l1 ++ '.' :: l2) = some l1.length := by
  induction l1 with
  | nil =>
    rw [List.nil_append]
    simp only [lastDotIndex, lastDotIndex_none h]
    simp
  | cons a t ih =>
    rw [List.cons_append]
    simp only [lastDotIndex, ih]
    rfl

theorem stripExtChars_name_ext {name ext : List Char}
    (hslash : ∀ c ∈ name ++ '.' :: ext, (c == '/') = false)
    (hext : ∀ c ∈ ext, c ≠ '.')
    (hne : name ≠ []) (hne1 : name ≠ ['.']) :
    stripExtChars (name ++ '.' :: ext) = name := by
  unfold stripExtChars
  rw [baseNameChars_no_slash hslash, lastDotIndex_append_dot hext]
  show (if name.length = 0 ∨ name ++ '.' :: ext = ['.', '.'] then name ++ '.' :: ext
    else (name ++ '.' :: ext).take name.length) = name
  rw [if_neg ?hcond]
  · exact List.take_left name ('.' :: ext)
  case hcond =>
    rintro (h0 | hdd)
    · exact hne (List.length_eq_zero.mp h0)
    · cases name with
      | nil => exact hne rfl
      | cons a t =>
        cases t with
        | nil =>
          simp only [List.cons_append, List.nil_append, List.cons.injEq] at hdd
          obtain ⟨rfl, h', -⟩ := hdd
          exact hne1 rfl
        | cons b u =>
          have hl := congrArg List.length hdd
          simp [List.length_append] at hl

theorem digit_not_slash {c : Char} (h : 48 ≤ c.toNat ∧ c.toNat ≤ 57) :
    (c == '/') = false := by
  cases hc : c == '/' with
  | false => rfl
  | true =>
    rw [beq_iff_eq] at hc
    subst hc
    exact absurd h (by decide)

theorem baseName_joinPath {dir f : String}
    (hf : ∀ c ∈ f.data, (c == '/') = false) (hne : f.data ≠ []) :
    baseName (joinPath dir f) = f := by
  unfold joinPath
  by_cases h1 : dir = "." ∨ dir = ""
  · rw [if_pos h1]
    exact String.ext (baseNameChars_no_slash hf)
  · rw [if_neg h1]
    by_cases h2 : dir.data.getLast? = some '/'
    · rw [if_pos h2]
      have hdirne : dir.data ≠ [] := by
        intro h0
        rw [h0] at h2
        simp at h2
      have hlast : dir.data.getLast hdirne = '/' := by
        have hg := List.getLast?_eq_getLast dir.data hdirne
        rw [h2] at hg
        exact (Option.some.inj hg).symm
      have hsplit : dir.data = dir.data.dropLast ++ ['/'] := by
        conv_lhs => rw [← List.dropLast_append_getLast hdirne]
        rw [hlast]
      apply String.ext
      show baseNameChars (dir ++ f).data = f.data
      rw [String.data_append, hsplit, List.append_assoc]
      exact baseNameChars_append_sep hf hne
    · rw [if_neg h2]
      apply String.ext
      show baseNameChars (dir ++ "/" ++ f).data = f.data
      rw [String.data_append, String.data_append, List.append_assoc]
      exact baseNameChars_append_sep hf hne

/-! ## C10: sanitization to the empty string and the `archive--` names -/

theorem archiveName_empty_eq (t : Nat) :
    ("archive-" ++ "" ++ "-" ++ natDec t ++ ".tar" : String) =
      "archive--" ++ natDec t ++ ".tar" := by
  apply String.ext
  simp [String.data_append]

theorem archiveNameEmpty_no_slash (t : Nat) :
    ∀ c ∈ ("archive--" ++ natDec t ++ ".tar" : String).data, (c == '/') = false := by
  intro c hc
  simp only [String.data_append, List.mem_append] at hc
  rcases hc with (hc | hc) | hc
  · exact (by decide : ∀ c ∈ "archive--".data, (c == '/') = false) c hc
  · exact digit_not_slash (natDec_digits t c hc)
  · exact (by decide : ∀ c ∈ ".tar".data, (c == '/') = false) c hc

theorem archiveTest_empty_filename {w : World} {sp : String} {od : Option String}
    {r : ArchiveResult} (h : (archiveTest w sp od).1 = .ok r)
    (hs : sanitizeText (pathParseName sp) = "") :
    r.archiveFilename = "archive--" ++ natDec w.now ++ ".tar" := by
  obtain ⟨rfl, -⟩ := archiveTest_ok_shape h
  show baseName (archivePathOf w sp od) = "archive--" ++ natDec w.now ++ ".tar"
  unfold archivePathOf
  rw [hs, archiveName_empty_eq]
  refine baseName_joinPath (archiveNameEmpty_no_slash w.now) ?_
  intro h0
  simp only [String.data_append] at h0
  exact absurd (List.append_eq_nil.mp h0).2 (by decide)

/-- C10: a script whose base name has no alphanumeric character — no
character whose lowercase image contains an ASCII alphanumeric, which
excludes `A`–`Z`, `a`–`z`, `0`–`9` and the two non-ASCII letters
U+212A/U+0130 that lowercase into ASCII — sanitizes to the empty
string, so a successful archive call on it yields
`archiveFilename = "archive--<millis>.tar"`, which contains the
substring `--`, and the resource name later derived from that filename
(by stripping the extension, as `createConfigMap` does) begins with
`archive--`. -/
theorem sanitize_empty_double_dash {w : World} {sp : String} {od : Option String}
    {r : ArchiveResult}
    (hs : ∀ c ∈ (pathParseName sp).data, ∀ d ∈ jsLower c, isLowerAlnum d = false)
    (h : (archiveTest w sp od).1 = .ok r) :
    sanitizeText (pathParseName sp) = "" ∧
    r.archiveFilename = "archive--" ++ natDec w.now ++ ".tar" ∧
    hasRun '-' r.archiveFilename.data = true ∧
    ∀ w' ns res, (createConfigMap w' r ns).1 = .ok res →
      ∃ rest, res.configMapName = "archive--" ++ rest := by
  have hempty : sanitizeText (pathParseName sp) = "" :=
    congrArg String.mk (sanitizeChars_nonalnum_nil hs)
  have hfile := archiveTest_empty_filename h hempty
  refine ⟨hempty, hfile, ?_, ?_⟩
  · rw [hfile]
    simp only [String.data_append]
    apply hasRun_append_left
    apply hasRun_append_left
    decide
  · intro w' ns res hres
    obtain ⟨rfl, -⟩ := createConfigMap_ok_shape hres
    show ∃ rest, pathParseName r.archiveFilename = "archive--" ++ rest
    rw [hfile]
    refine ⟨⟨(natDec w.now).data⟩, ?_⟩
    apply String.ext
    show stripExtChars ("archive--" ++ natDec w.now ++ ".tar").data = _
    have hdata : ("archive--" ++ natDec w.now ++ ".tar").data =
        ("archive--".data ++ (natDec w.now).data) ++ '.' :: "tar".data := rfl
    have hsl : ∀ c ∈ ("archive--".data ++ (natDec w.now).data) ++ '.' :: "tar".data,
        (c == '/') = false := by
      rw [← hdata]
      exact archiveNameEmpty_no_slash w.now
    have hx : ∀ c ∈ "tar".data, c ≠ '.' := by decide
    have hn : "archive--".data ++ (natDec w.now).data ≠ [] := by
      intro h0
      exact absurd (List.append_eq_nil.mp h0).1 (by decide)
    have hn1 : "archive--".data ++ (natDec w.now).data ≠ ['.'] := by
      intro h0
      have hl := congrArg List.length h0
      have h9 : ("archive--".data).length = 9 := by decide
      simp [List.length_append, h9] at hl
    rw [hdata, stripExtChars_name_ext hsl hx hn hn1, String.data_append]

/-- A world in which only `___.js` exists (a script base name with no
alphanumeric character). -/
def wU : World := { wGood with fileExists := fun p => p == "___.js" }

/-- The `ArchiveResult` of `archiveTest wU "___.js" none`. -/
def arU : ArchiveResult :=
  { archivePath := "archive--17.tar", archiveFilename := "archive--17.tar",
    scriptPath := "___.js", scriptFilename := "___.js" }

/-- The `ConfigMapResult` of `createConfigMap wPub arU "default"`. -/
def resU : ConfigMapResult :=
  { «namespace» := "default", configMapName := "archive--17",
    archivePath := "archive--17.tar", archiveFilename := "archive--17.tar" }

/-- Witness for C10: archiving `___.js` at `t = 17` yields
`archive--17.tar`, and publishing it derives the name `archive--17`. -/
theorem sanitize_empty_double_dash_witness :
    sanitizeText (pathParseName "___.js") = "" ∧
    arU.archiveFilename = "archive--" ++ natDec wU.now ++ ".tar" ∧
    hasRun '-' arU.archiveFilename.data = true ∧
    ∃ rest, resU.configMapName = "archive--" ++ rest := by
  obtain ⟨h1, h2, h3, h4⟩ := @sanitize_empty_double_dash wU "___.js" none arU
    (by decide) (by decide)
  exact ⟨h1, h2, h3, h4 wPub "default" resU (by decide)⟩

/-! ## C1: the derived resource name and the spec's validity invariant -/

/-- The spec's §3 invariant on `configMapName`, stated from the spec's
words so the code's derived name can be compared against it: lowercase
alphanumeric, `-`, `.`; not starting or ending with `-`/`.`; no run of
repeated `-` or `.`. -/
def isValidResourceName (s : String) : Bool :=
  s.data.all isAllowed &&
  (match s.data.head? with | some c => !isDashDot c | none => true) &&
  (match s.data.getLast? with | some c => !isDashDot c | none => true) &&
  !hasRun '-' s.data && !hasRun '.' s.data

example : isValidResourceName "archive-sample-17" = true := by decide

example : isValidResourceName "archive--17" = false := by decide

theorem digit_allowed {c : Char} (h : 48 ≤ c.toNat ∧ c.toNat ≤ 57) :
    isAllowed c = true := by
  simp only [isAllowed, isLowerAlnum, Bool.or_eq_true, Bool.and_eq_true,
    decide_eq_true_eq]
  omega

theorem digit_not_dashdot {c : Char} (h : 48 ≤ c.toNat ∧ c.toNat ≤ 57) :
    isDashDot c = false := by
  cases hc : isDashDot c with
  | false => rfl
  | true =>
    simp only [isDashDot, Bool.or_eq_true, beq_iff_eq] at hc
    rcases hc with rfl | rfl <;> exact absurd h (by decide)

theorem getLast?_append_of_ne_nil {l1 l2 : List Char} (h : l2 ≠ []) :
    (l1 ++ l2).getLast? = l2.getLast? := by
  rw [List.getLast?_append]
  cases hl : l2.getLast? with
  | none => exact absurd (List.getLast?_eq_none_iff.mp hl) h
  | some y => rfl

/-- Concatenation does not create a run of `c` when neither part has one
and the joint pair is not a run. -/
theorem hasRun_append {c : Char} {l1 l2 : List Char}
    (h1 : hasRun c l1 = false) (h2 : hasRun c l2 = false)
    (hj : ∀ a b, l1.getLast? = some a → l2.head? = some b → ¬(a = c ∧ b = c)) :
    hasRun c (l1 ++ l2) = false := by
  induction l1 with
  | nil => exact h2
  | cons a t ih =>
    cases t with
    | nil =>
      cases l2 with
      | nil => rfl
      | cons b u =>
        show hasRun c (a :: b :: u) = false
        simp only [hasRun, Bool.or_eq_false_iff]
        refine ⟨?_, h2⟩
        have := hj a b rfl rfl
        rcases Decidable.not_and_iff_or_not.mp this with h' | h' <;>
          simp [beq_eq_false_iff_ne, h']
    | cons a2 t2 =>
      have hfirst : (a == c && a2 == c) = false := by
        have := hasRun_head h1
        rcases Decidable.not_and_iff_or_not.mp this with h' | h' <;>
          simp [beq_eq_false_iff_ne, h']
      have hj' : ∀ x y, (a2 :: t2).getLast? = some x → l2.head? = some y →
          ¬(x = c ∧ y = c) := by
        intro x y hx hy
        exact hj x y (by rw [List.getLast?_cons_cons]; exact hx) hy
      have hrest := ih (hasRun_tail h1) hj'
      rw [List.cons_append] at hrest
      show hasRun c (a :: a2 :: (t2 ++ l2)) = false
      simp only [hasRun, Bool.or_eq_false_iff]
      exact ⟨hfirst, hrest⟩

/-- The list of a name `archive-<s>-<digits>` is a valid resource name
whenever `s` has the shape of a nonempty `sanitizeText` output. -/
theorem name_valid_chars {s dd : List Char}
    (hmem : ∀ c ∈ s, isAllowed c = true)
    (hhead : ∀ c, s.head? = some c → isLowerAlnum c = true)
    (hlast : ∀ c, s.getLast? = some c → isLowerAlnum c = true)
    (hd : hasRun '-' s = false) (hp : hasRun '.' s = false)
    (hsne : s ≠ [])
    (hdig : ∀ c ∈ dd, 48 ≤ c.toNat ∧ c.toNat ≤ 57) (hddne : dd ≠ []) :
    isValidResourceName ⟨(("archive-".data ++ s) ++ "-".data) ++ dd⟩ = true := by
  have hAlast : ("archive-".data).getLast? = some '-' := by decide
  have hClast : ("-".data).getLast? = some '-' := by decide
  have hChead : ("-".data).head? = some '-' := by decide
  have hCne : ("-".data : List Char) ≠ [] := by decide
  have hdashRun : hasRun '-' ((("archive-".data ++ s) ++ "-".data) ++ dd) = false := by
    have hAB : hasRun '-' ("archive-".data ++ s) = false := by
      refine hasRun_append (by decide) hd ?_
      intro a b ha hb
      rw [hAlast, Option.some.injEq] at ha
      rintro ⟨-, rfl⟩
      exact absurd (hhead '-' hb) (by decide)
    have hABC : hasRun '-' (("archive-".data ++ s) ++ "-".data) = false := by
      refine hasRun_append hAB (by decide) ?_
      intro a b ha hb
      rw [getLast?_append_of_ne_nil hsne] at ha
      rintro ⟨rfl, -⟩
      exact absurd (hlast '-' ha) (by decide)
    refine hasRun_append hABC (hasRun_of_not_mem ?_) ?_
    · intro hmm
      exact absurd (hdig '-' hmm) (by decide)
    · intro a b ha hb
      rintro ⟨-, rfl⟩
      exact absurd (hdig '-' (mem_of_head? hb)) (by decide)
  have hdotRun : hasRun '.' ((("archive-".data ++ s) ++ "-".data) ++ dd) = false := by
    have hAB : hasRun '.' ("archive-".data ++ s) = false := by
      refine hasRun_append (by decide) hp ?_
      intro a b ha hb
      rw [hAlast, Option.some.injEq] at ha
      rintro ⟨h', -⟩
      rw [← ha] at h'
      exact absurd h' (by decide)
    have hABC : hasRun '.' (("archive-".data ++ s) ++ "-".data) = false := by
      refine hasRun_append hAB (by decide) ?_
      intro a b ha hb
      rw [getLast?_append_of_ne_nil hsne] at ha
      rintro ⟨rfl, -⟩
      exact absurd (hlast '.' ha) (by decide)
    refine hasRun_append hABC (hasRun_of_not_mem ?_) ?_
    · intro hmm
      exact absurd (hdig '.' hmm) (by decide)
    · intro a b ha hb
      rintro ⟨-, rfl⟩
      exact absurd (hdig '.' (mem_of_head? hb)) (by decide)
  have hh : ((("archive-".data ++ s) ++ "-".data) ++ dd).head? = some 'a' :=
    head?_append_of_head? (head?_append_of_head? (head?_append_of_head? rfl))
  have hg : ((("archive-".data ++ s) ++ "-".data) ++ dd).getLast? = dd.getLast? :=
    getLast?_append_of_ne_nil hddne
  simp only [isValidResourceName, Bool.and_eq_true]
  refine ⟨⟨⟨⟨?_, ?_⟩, ?_⟩, ?_⟩, ?_⟩
  · rw [List.all_eq_true]
    intro c hc
    rcases List.mem_append.mp hc with hc | hc
    · rcases List.mem_append.mp hc with hc | hc
      · rcases List.mem_append.mp hc with hc | hc
        · exact (by decide : ∀ c ∈ "archive-".data, isAllowed c = true) c hc
        · exact hmem c hc
      · exact (by decide : ∀ c ∈ "-".data, isAllowed c = true) c hc
    · exact digit_allowed (hdig c hc)
  · show (match ((("archive-".data ++ s) ++ "-".data) ++ dd).head? with
      | some c => !isDashDot c | none => true) = true
    rw [hh]
    decide
  · show (match ((("archive-".data ++ s) ++ "-".data) ++ dd).getLast? with
      | some c => !isDashDot c | none => true) = true
    rw [hg]
    cases hy : dd.getLast? with
    | none => exact absurd (List.getLast?_eq_none_iff.mp hy) hddne
    | some y =>
      have := digit_not_dashdot (hdig y (List.mem_of_getLast?_eq_some hy))
      simp [this]
  · simpa using hdashRun
  · simpa using hdotRun

theorem allowed_not_slash {c : Char} (h : isAllowed c = true) : (c == '/') = false := by
  cases hc : c == '/' with
  | false => rfl
  | true =>
    rw [beq_iff_eq] at hc
    subst hc
    exact absurd h (by decide)

theorem archiveName_no_slash (x : String) (t : Nat) :
    ∀ c ∈ ("archive-" ++ sanitizeText x ++ "-" ++ natDec t ++ ".tar" : String).data,
      (c == '/') = false := by
  intro c hc
  simp only [String.data_append, List.mem_append] at hc
  rcases hc with (((hc | hc) | hc) | hc) | hc
  · exact (by decide : ∀ c ∈ "archive-".data, (c == '/') = false) c hc
  · exact allowed_not_slash ((sanitizeChars_spec x.data).1 c hc)
  · exact (by decide : ∀ c ∈ "-".data, (c == '/') = false) c hc
  · exact digit_not_slash (natDec_digits t c hc)
  · exact (by decide : ∀ c ∈ ".tar".data, (c == '/') = false) c hc

theorem archiveName_strip (x : String) (t : Nat) :
    pathParseName ("archive-" ++ sanitizeText x ++ "-" ++ natDec t ++ ".tar") =
      "archive-" ++ sanitizeText x ++ "-" ++ natDec t := by
  have hdata : ("archive-" ++ sanitizeText x ++ "-" ++ natDec t ++ ".tar").data =
      ((("archive-".data ++ (sanitizeText x).data) ++ "-".data) ++ (natDec t).data)
        ++ '.' :: "tar".data := rfl
  have hsl : ∀ c ∈ ((("archive-".data ++ (sanitizeText x).data) ++ "-".data)
      ++ (natDec t).data) ++ '.' :: "tar".data, (c == '/') = false := by
    rw [← hdata]
    exact archiveName_no_slash x t
  have hx : ∀ c ∈ "tar".data, c ≠ '.' := by decide
  have hn : (("archive-".data ++ (sanitizeText x).data) ++ "-".data)
      ++ (natDec t).data ≠ [] := by
    intro h0
    exact absurd (List.append_eq_nil.mp
      (List.append_eq_nil.mp (List.append_eq_nil.mp h0).1).1).1 (by decide)
  have hn1 : (("archive-".data ++ (sanitizeText x).data) ++ "-".data)
      ++ (natDec t).data ≠ ['.'] := by
    intro h0
    have hl := congrArg List.length h0
    have h8 : ("archive-".data).length = 8 := by decide
    simp [List.length_append, h8] at hl
  exact congrArg String.mk (stripExtChars_name_ext hsl hx hn hn1)

theorem archiveResourceName_valid (x : String) (t : Nat) (hne : sanitizeText x ≠ "") :
    isValidResourceName ("archive-" ++ sanitizeText x ++ "-" ++ natDec t) = true := by
  obtain ⟨hmem, hhead, hlast, hd, hp⟩ := sanitizeChars_spec x.data
  exact @name_valid_chars (sanitizeText x).data (natDec t).data
    hmem hhead hlast hd hp (fun h0 => hne (String.ext h0))
    (natDec_digits t) (natDec_ne_nil t)

/-- Counterexample to C1 as stated: publishing the archive of `___.js`
(see C10) derives `configMapName = "archive--17"` by stripping the
extension only; the strip-then-sanitize derivation the claim describes
would give `"archive-17"`, and the actual name is not a valid cluster
resource name (it contains `--`). -/
theorem publish_name_cex :
    (createConfigMap wPub arU "default").1 = .ok resU ∧
    resU.configMapName = "archive--17" ∧
    sanitizeText (pathParseName arU.archiveFilename) = "archive-17" ∧
    ¬resU.configMapName = sanitizeText (pathParseName arU.archiveFilename) ∧
    isValidResourceName resU.configMapName = false := by decide

/-- C1 (amended): publish derives `configMapName` from the archive
filename by stripping the extension only (no sanitization is
re-applied); for every `ArchiveResult` produced by a successful archive
call whose sanitized script name is nonempty, that name is a valid
cluster resource name. -/
theorem publish_name_spec {w w' : World} {sp : String} {od : Option String}
    {r : ArchiveResult} {ns : String} {res : ConfigMapResult}
    (ha : (archiveTest w sp od).1 = .ok r)
    (hs : sanitizeText (pathParseName sp) ≠ "")
    (hp : (createConfigMap w' r ns).1 = .ok res) :
    res.configMapName = pathParseName r.archiveFilename ∧
    isValidResourceName res.configMapName = true := by
  obtain ⟨rfl, -⟩ := createConfigMap_ok_shape hp
  refine ⟨rfl, ?_⟩
  obtain ⟨rfl, -⟩ := archiveTest_ok_shape ha
  show isValidResourceName (pathParseName (baseName (archivePathOf w sp od))) = true
  have hfile : baseName (archivePathOf w sp od) =
      "archive-" ++ sanitizeText (pathParseName sp) ++ "-" ++ natDec w.now ++ ".tar" := by
    unfold archivePathOf
    refine baseName_joinPath (archiveName_no_slash (pathParseName sp) w.now) ?_
    intro h0
    simp only [String.data_append] at h0
    exact absurd (List.append_eq_nil.mp h0).2 (by decide)
  rw [hfile, archiveName_strip (pathParseName sp) w.now]
  exact archiveResourceName_valid (pathParseName sp) w.now hs

/-- The `ConfigMapResult` of publishing `arSample` in `wPub`. -/
def resSample : ConfigMapResult :=
  { «namespace» := "default", configMapName := "archive-sample-17",
    archivePath := "archive-sample-17.tar", archiveFilename := "archive-sample-17.tar" }

/-- Witness for C1's amended theorem: the end-to-end run on `sample.js`
derives `archive-sample-17`, a valid resource name. -/
theorem publish_name_spec_witness :
    resSample.configMapName = pathParseName arSample.archiveFilename ∧
    isValidResourceName resSample.configMapName = true :=
  @publish_name_spec wGood wPub "sample.js" none arSample "default" resSample
    (by decide) (by decide) (by decide)

end K6ctl
